import Mathlib

/-!
Verification of the arisu terminal assistant (Go) against its specification.

Text is modelled as `List Char` (Go strings, read rune by rune).  The
embedded functions mirror, definition by definition, the Go source of the
most complete revision (`main.go` of the final revision for the directive
scanner, block segmenter and action execution; the earlier revision's
`runAgenticMode` for the step-file agent runner).  External effects
(filesystem, interactive confirmation, shell execution, backend replies)
are threaded explicitly through small state records.
-/

namespace Arisu

/-- Characters with the Unicode White_Space property, as tested by Go's
unicode.IsSpace (used by strings.TrimSpace). -/
def goIsSpace (c : Char) : Bool :=
  c == ' ' || c == '\t' || c == '\n' || c.toNat == 0x0B || c.toNat == 0x0C ||
  c == '\r' || c.toNat == 0x85 || c.toNat == 0xA0 || c.toNat == 0x1680 ||
  (0x2000 ≤ c.toNat && c.toNat ≤ 0x200A) || c.toNat == 0x2028 ||
  c.toNat == 0x2029 || c.toNat == 0x202F || c.toNat == 0x205F ||
  c.toNat == 0x3000

/-- Go strings.TrimSpace: drop leading and trailing white space. -/
def goTrimSpace (s : List Char) : List Char :=
  ((s.dropWhile goIsSpace).reverse.dropWhile goIsSpace).reverse

/-- Go strings.Index: index of the first occurrence of a pattern, if any. -/
def indexOf? (pat : List Char) : List Char → Option Nat
  | [] => if pat.isPrefixOf ([] : List Char) then some 0 else none
  | c :: rest =>
    if pat.isPrefixOf (c :: rest) then some 0
    else (indexOf? pat rest).map (· + 1)

/-- Go strings.Contains. -/
def containsSub (pat s : List Char) : Bool := (indexOf? pat s).isSome

/-- Go strings.HasSuffix. -/
def goHasSuffix (suf s : List Char) : Bool := suf.isSuffixOf s

/-- Go strings.Split(s, "\n"): split at every newline; never empty. -/
def splitNl : List Char → List (List Char)
  | [] => [[]]
  | c :: rest =>
    if c = '\n' then [] :: splitNl rest
    else
      match splitNl rest with
      | [] => [[c]]
      | l :: ls => (c :: l) :: ls

/-- Go strings.SplitN(s, "\n", n) for n ≥ 1: at most n parts, the last part
keeps the remaining newlines. -/
def splitNlN (n : Nat) (s : List Char) : List (List Char) :=
  match n with
  | 0 => [s]
  | 1 => [s]
  | m + 2 =>
    match indexOf? (['\n']) s with
    | none => [s]
    | some i => s.take i :: splitNlN (m + 1) (s.drop (i + 1))

/-- One step of Go strings.Split with a multi-character separator,
fuelled by the length of the text (the separator is non-empty). -/
def splitOnSubFuel (sep : List Char) : Nat → List Char → List (List Char)
  | 0, s => [s]
  | fuel + 1, s =>
    match indexOf? sep s with
    | none => [s]
    | some i => s.take i :: splitOnSubFuel sep fuel (s.drop (i + sep.length))

/-- Go strings.Split(s, sep) for a non-empty separator. -/
def goSplitOnSub (sep s : List Char) : List (List Char) :=
  splitOnSubFuel sep (s.length + 1) s

/-- A block of consecutive non-blank lines, as produced by parseBlocks.
The ID is assigned at parse time and is not renumbered by in-memory edits. -/
structure Block where
  id : Nat
  lines : List (List Char)
  deriving Repr, DecidableEq

/-- The accumulation loop of parseBlocks: group the line list into runs of
lines that are non-blank after TrimSpace, flushing at blank lines, with the
current run carried as an accumulator exactly like the Go loop. -/
def parseLoop : List (List Char) → List (List Char) → List (List (List Char))
  | [], cur => if cur.isEmpty then [] else [cur]
  | l :: ls, cur =>
    if (goTrimSpace l).isEmpty then
      if cur.isEmpty then parseLoop ls []
      else cur :: parseLoop ls []
    else parseLoop ls (cur ++ [l])

/-- parseBlocks: split the content on newlines and group non-blank runs into
blocks; IDs are assigned in parse order 0,1,2,…. -/
def parseBlocks (content : List Char) : List Block :=
  (parseLoop (splitNl content) []).enum.map fun p => ⟨p.1, p.2⟩

/-- The per-block part of blocksToString: every line followed by a newline. -/
def blockChunk (ls : List (List Char)) : List Char :=
  (ls.map (· ++ ['\n'])).flatten

/-- blocksToString: each block's lines each followed by a newline, with one
extra blank separator line between consecutive blocks (none after the last). -/
def blocksToString : List Block → List Char
  | [] => []
  | [b] => blockChunk b.lines
  | b :: bs => blockChunk b.lines ++ '\n' :: blocksToString bs

/-- The four directive kinds recognised by the scanner. -/
inductive Tag where
  | patch | edit | run | read
  deriving Repr, DecidableEq

def openTagOf : Tag → List Char
  | .patch => "<PATCH>".toList
  | .edit => "<EDIT>".toList
  | .run => "<RUN>".toList
  | .read => "<READ>".toList

def closeTagOf : Tag → List Char
  | .patch => "</PATCH>".toList
  | .edit => "</EDIT>".toList
  | .run => "</RUN>".toList
  | .read => "</READ>".toList

def toolCallMarker : List Char := "[TOOL_CALL]".toList

/-- One link of handleResponse's firstTag selection chain: keep the current
candidate unless this tag occurs and starts strictly earlier (or no candidate
was selected yet). -/
def pickTag (cand : Option Nat) (t : Tag) (cur : Option (Nat × Tag)) :
    Option (Nat × Tag) :=
  match cand, cur with
  | none, cur => cur
  | some i, none => some (i, t)
  | some i, some (j, u) => if i < j then some (i, t) else some (j, u)

/-- The firstTag selection of handleResponse: the earliest of the four
opening tags present in the remaining response, considered in the source
order PATCH, EDIT, RUN, READ. -/
def findFirstTag (rem : List Char) : Option (Nat × Tag) :=
  pickTag (indexOf? (openTagOf .read) rem) .read
    (pickTag (indexOf? (openTagOf .run) rem) .run
      (pickTag (indexOf? (openTagOf .edit) rem) .edit
        (pickTag (indexOf? (openTagOf .patch) rem) .patch none)))

/-- A directive decoded from the response, the executable payload of the
corresponding Go Action value. -/
inductive GoAction where
  | patch (filename : List Char) (id : Int) (content : List Char)
  | edit (filename : List Char) (content : List Char)
  | run (command : List Char)
  | read (filename : List Char)
  deriving Repr, DecidableEq

/-- Non-empty all-decimal-digit string to a number. -/
def decDigits? (s : List Char) : Option Nat :=
  if s.isEmpty then none
  else
    s.foldl
      (fun acc c =>
        match acc with
        | none => none
        | some n => if c.isDigit then some (n * 10 + (c.toNat - 48)) else none)
      (some 0)

/-- Go strconv.Atoi: optional sign then decimal digits.  The 64-bit range
check is not modelled; no claim involves ids near the machine bound. -/
def goAtoi? : List Char → Option Int
  | [] => none
  | '+' :: rest => (decDigits? rest).map Int.ofNat
  | '-' :: rest => (decDigits? rest).map fun n => -(Int.ofNat n)
  | s => (decDigits? s).map Int.ofNat

/-- Per-kind payload parsing of handleResponse, on the text strictly between
the opening and closing tag; none when the directive is dropped (missing
Edit filename line, missing Patch lines, unparsable Patch id). -/
def parsePayload (t : Tag) (content : List Char) : Option GoAction :=
  match t with
  | .patch =>
    match splitNlN 3 (goTrimSpace content) with
    | l0 :: l1 :: rest =>
      match goAtoi? (goTrimSpace l1) with
      | none => none
      | some i =>
        let patchContent := match rest with | [l2] => l2 | _ => []
        some (.patch (goTrimSpace l0) i patchContent)
    | _ => none
  | .edit =>
    match splitNlN 2 (goTrimSpace content) with
    | [l0, l1] => some (.edit (goTrimSpace l0) l1)
    | _ => none
  | .run => some (.run (goTrimSpace content))
  | .read => some (.read (goTrimSpace content))

/-- Result of one iteration of the scan loop: no tag left (break), a Go
slice-bounds panic, or advance to a new remaining suffix, possibly emitting
a directive, with the [TOOL_CALL] flag computed for this tag. -/
inductive IterOut where
  | noTag
  | panicked
  | next (newRem : List Char) (emitted : Option (GoAction × Bool)) (markedTC : Bool)
  deriving Repr, DecidableEq

/-- One iteration of handleResponse's scan loop.  The closing tag is searched
from the start of the remaining suffix (strings.Index), and the payload slice
remainingResponse[start+len(open) : endIdx] panics when endIdx lies before
the end of the opening tag. -/
def scanIter (rem : List Char) : IterOut :=
  match findFirstTag rem with
  | none => .noTag
  | some (start, tag) =>
    let pre := rem.take start
    let isTC := containsSub toolCallMarker pre &&
      goHasSuffix toolCallMarker (goTrimSpace pre)
    match indexOf? (closeTagOf tag) rem with
    | none => .next (rem.drop (start + (openTagOf tag).length)) none isTC
    | some endIdx =>
      if endIdx < start + (openTagOf tag).length then .panicked
      else
        let content := (rem.take endIdx).drop (start + (openTagOf tag).length)
        .next (rem.drop (endIdx + (closeTagOf tag).length))
          ((parsePayload tag content).map fun a => (a, isTC)) isTC

/-- Outcome of the whole scan: the ordered directives with their immediate
flags plus the hasToolCall flag, or a panic; fuelOut is never reached when
the fuel exceeds the length of the response. -/
inductive ScanResult where
  | ok (actions : List (GoAction × Bool)) (hasToolCall : Bool)
  | panicked
  | fuelOut
  deriving Repr, DecidableEq

/-- The scan loop of handleResponse, fuelled: each iteration strictly
shortens the remaining suffix, so length-plus-one fuel always suffices. -/
def scanFuel : Nat → List Char → List (GoAction × Bool) → Bool → ScanResult
  | 0, _, _, _ => .fuelOut
  | fuel + 1, rem, acc, htc =>
    match scanIter rem with
    | .noTag => .ok acc htc
    | .panicked => .panicked
    | .next newRem emitted isTC =>
      scanFuel fuel newRem (acc ++ emitted.toList) (htc || isTC)

/-- The extraction phase of handleResponse on a whole response. -/
def extractDirectives (response : List Char) : ScanResult :=
  scanFuel (response.length + 1) response [] false

example : extractDirectives ("<RUN>\nls\n</RUN>".toList) =
    .ok [(.run ("ls".toList), false)] false := by decide

example : extractDirectives ("<EDIT>\nfoo.txt\n".toList) = .ok [] false := by
  decide

example : extractDirectives ("</RUN><RUN>x</RUN>".toList) = .panicked := by
  decide

example : extractDirectives ("prefix [TOOL_CALL] <RUN>\nls\n</RUN>".toList) =
    .ok [(.run ("ls".toList), true)] true := by decide

/-- The gating flags of the configuration (the other Config fields play no
role in directive execution). -/
structure GoConfig where
  autoEdit : Bool
  autoRun : Bool
  deriving Repr, DecidableEq

/-- External state visible to Action.Execute: the files on disk, the pending
interactive y/n confirmation answers in the order they will be consumed, and
the behaviour of shell commands (captured combined output and, when the
command fails, the error text).  The conversation history is not part of
this state: no Execute method touches the client. -/
structure Env where
  fs : List (List Char × List Char)
  confirms : List Bool
  runEnv : List Char → List Char × Option (List Char)

/-- The os.ReadFile of the model: first binding of the filename. -/
def lookupFS : List (List Char × List Char) → List Char → Option (List Char)
  | [], _ => none
  | (k, v) :: rest, n => if k = n then some v else lookupFS rest n

/-- The os.WriteFile of the model: replace the first binding or append one.
Write failures are not modelled; no claim depends on the write-error path. -/
def writeFS : List (List Char × List Char) → List Char → List Char →
    List (List Char × List Char)
  | [], n, c => [(n, c)]
  | (k, v) :: rest, n, c =>
    if k = n then (k, c) :: rest else (k, v) :: writeFS rest n c

/-- config.AutoX || confirmAction(...): when the auto flag is set the
confirmation prompt is short-circuited away; otherwise one pending answer is
consumed (end of input answers no, like a failed Scan). -/
def gate (auto : Bool) (env : Env) : Bool × Env :=
  if auto then (true, env)
  else
    match env.confirms with
    | [] => (false, env)
    | b :: bs => (b, { env with confirms := bs })

/-- Stand-in for the operating system's error text when a file is absent
(Go prints the os error with %v; its exact wording is OS-specific). -/
def errNoFile : List Char := "no such file".toList

/-- In-memory block update of PatchAction.Execute: empty trimmed content
deletes the addressed block; otherwise its Lines are replaced by the content
split on newlines, with one trailing empty line dropped.  Block IDs are left
as they were (they shift only on the next segmentation). -/
def setBlockLines : List Block → Nat → List (List Char) → List Block
  | [], _, _ => []
  | b :: bs, 0, ls => ⟨b.id, ls⟩ :: bs
  | b :: bs, n + 1, ls => b :: setBlockLines bs n ls

def patchEditBlocks (blocks : List Block) (idNat : Nat) (content : List Char) :
    List Block :=
  if (goTrimSpace content).isEmpty then blocks.eraseIdx idNat
  else
    let newLines := splitNl content
    let newLines := if newLines.getLast? = some [] then newLines.dropLast
      else newLines
    setBlockLines blocks idNat newLines

def userRole : List Char := "user".toList

/-- Action.Execute of the final revision, one method per directive kind,
returning the result text, whether a Go error was returned, and the updated
external state. -/
def execAction (cfg : GoConfig) (a : GoAction) (env : Env) :
    (List Char × Bool) × Env :=
  match a with
  | .patch fname i c =>
    let g := gate cfg.autoEdit env
    if g.1 then
      match lookupFS g.2.fs fname with
      | none =>
        (("Error reading ".toList ++ fname ++ ": ".toList ++ errNoFile, true), g.2)
      | some content =>
        let blocks := parseBlocks content
        if i < 0 ∨ (blocks.length : Int) ≤ i then
          (("Error: Block ID ".toList ++ (toString i).toList ++
            " not found in ".toList ++ fname, true), g.2)
        else
          let newContent := blocksToString (patchEditBlocks blocks i.toNat c)
          (("File ".toList ++ fname ++ " patched successfully.".toList, false),
            { g.2 with fs := writeFS g.2.fs fname newContent })
    else (("Patch on ".toList ++ fname ++ " skipped.".toList, false), g.2)
  | .edit fname c =>
    let g := gate cfg.autoEdit env
    if g.1 then
      (("File ".toList ++ fname ++ " written successfully.".toList, false),
        { g.2 with fs := writeFS g.2.fs fname c })
    else (("Write on ".toList ++ fname ++ " skipped.".toList, false), g.2)
  | .run cmd =>
    let g := gate cfg.autoRun env
    if g.1 then
      match g.2.runEnv cmd with
      | (_, some e) =>
        (("Command failed: ".toList ++ cmd ++ "\nError: ".toList ++ e, true), g.2)
      | (out, none) =>
        if out.isEmpty then
          (("Command executed successfully (no output).".toList, false), g.2)
        else (("Command output:\n".toList ++ out, false), g.2)
    else (("Command skipped: ".toList ++ cmd, false), g.2)
  | .read fname =>
    match lookupFS env.fs fname with
    | none =>
      (("Error reading ".toList ++ fname ++ ": ".toList ++ errNoFile, true), env)
    | some content =>
      let blocks := parseBlocks content
      let listing := "Content of ".toList ++ fname ++
        " (split into blocks):\n".toList ++
        (blocks.map fun b =>
          "--- BLOCK ".toList ++ (Nat.repr b.id).toList ++ " ---\n".toList ++
            blockChunk b.lines).flatten
      ((listing, false), env)

/-- The execution loop at the end of handleResponse: every action executes
in order (returned errors are discarded); an immediate result is written to
the feedback builder followed by a newline, a non-immediate result is
appended to the history as a user entry. -/
def execLoop (cfg : GoConfig) :
    List (GoAction × Bool) → Env → List (List Char × List Char) →
      List Char × Env × List (List Char × List Char)
  | [], env, hist => ([], env, hist)
  | (a, tc) :: rest, env, hist =>
    let r := execAction cfg a env
    let hist₁ := if tc then hist else hist ++ [(userRole, r.1.1)]
    let q := execLoop cfg rest r.2 hist₁
    (if tc then r.1.1 ++ '\n' :: q.1 else q.1, q.2)

/-- handleResponse of the final revision: scan, then execute; returns the
accumulated feedback text, the hasToolCall flag and the updated external
state and history; none when the scan loop panics (or, unreachably, runs
out of fuel). -/
def handleResponseGo (cfg : GoConfig) (response : List Char) (env : Env)
    (hist : List (List Char × List Char)) :
    Option (List Char × Bool × Env × List (List Char × List Char)) :=
  match extractDirectives response with
  | .ok acts htc =>
    let r := execLoop cfg acts env hist
    some (r.1, htc, r.2.1, r.2.2)
  | _ => none

/-- Execution stripped of result routing: the ordered list of
(result, immediate) pairs of a batch together with the final external
state.  Used to state what the loop above computes. -/
def execPure (cfg : GoConfig) :
    List (GoAction × Bool) → Env → List (List Char × Bool) × Env
  | [], env => ([], env)
  | (a, tc) :: rest, env =>
    let r := execAction cfg a env
    let q := execPure cfg rest r.2
    ((r.1.1, tc) :: q.1, q.2)

/-- Newline-terminated concatenation of the immediate results. -/
def tcFeedback (rs : List (List Char × Bool)) : List Char :=
  ((rs.filter (·.2)).map fun r => r.1 ++ ['\n']).flatten

/-- The non-immediate results as user-role history entries. -/
def nonTcMsgs (rs : List (List Char × Bool)) :
    List (List Char × List Char) :=
  (rs.filter fun r => !r.2).map fun r => (userRole, r.1)

/-- State of the step-file agent runner: whether AGENTSTEPS.arisu still
exists, the stream of SendMessage outcomes yet to come in call order (none
is a transport error), and how many steps were actually executed.  The
directive execution inside each turn is not tracked: it does not call
os.Remove on the sentinel, and the claims about the runner concern only the
runner's own control flow. -/
structure AgentState where
  sentinel : Bool
  replies : List (Option (List Char))
  executed : Nat
  deriving Repr, DecidableEq

/-- One client.SendMessage call: consume the next scripted outcome (an
exhausted script behaves as a transport failure). -/
def popReply (st : AgentState) : Option (List Char) × AgentState :=
  match st.replies with
  | [] => (none, st)
  | r :: rest => (r, { st with replies := rest })

def endMarker : List Char := "<END>".toList

/-- The step loop of runAgenticMode: blank steps are skipped; the run
counter is incremented before the 10-run cap test; the cap, a send failure
and an <END> occurrence in the step reply each remove the sentinel file and
return; after a successful step the literal Proceed. is sent and its reply
handled; and when the steps are exhausted the loop simply ends, without
removing the sentinel file. -/
def stepsLoop : List (List Char) → Nat → AgentState → AgentState
  | [], _, st => st
  | step :: rest, runCount, st =>
    if (goTrimSpace step).isEmpty then stepsLoop rest runCount st
    else
      let rc := runCount + 1
      if 10 < rc then { st with sentinel := false }
      else
        match popReply st with
        | (none, st₁) => { st₁ with sentinel := false }
        | (some resp, st₁) =>
          let st₂ := { st₁ with executed := st₁.executed + 1 }
          if containsSub endMarker resp then { st₂ with sentinel := false }
          else
            match popReply st₂ with
            | (none, st₃) => { st₃ with sentinel := false }
            | (some _, st₃) => stepsLoop rest rc st₃

/-- runAgenticMode of main.go: split the sentinel file on the literal
Steps: marker; fewer than two parts is an invalid file (return, no
removal); otherwise the text after the first marker, trimmed and split on
newlines, is the step list. -/
def runAgenticModeGo (content : List Char) (st : AgentState) : AgentState :=
  match goSplitOnSub ("Steps:".toList) content with
  | _ :: p1 :: _ => stepsLoop (splitNl (goTrimSpace p1)) 0 st
  | _ => st

example :
    runAgenticModeGo ("pre\nSteps:\nhello".toList)
      ⟨true, [some ("ok".toList), some ("fine".toList)], 0⟩ =
    ⟨true, [], 1⟩ := by decide

example :
    runAgenticModeGo ("Steps:\nhello".toList)
      ⟨true, [some ("done <END>".toList)], 0⟩ =
    ⟨false, [], 1⟩ := by decide

/-- The line list obtained by re-splitting a serialized block sequence:
the blocks' line runs separated by single empty lines, with one trailing
empty line from the final newline (and only that line when there are no
blocks). -/
def glueLines : List (List (List Char)) → List (List Char)
  | [] => [[]]
  | [b] => b ++ [[]]
  | b :: bs => b ++ [] :: glueLines bs

example : parseBlocks ("a\n\nb\nc\n\nd".toList) =
    [⟨0, ["a".toList]⟩, ⟨1, ["b".toList, "c".toList]⟩, ⟨2, ["d".toList]⟩] := by
  decide

example : blocksToString [⟨0, ["a".toList]⟩, ⟨1, ["d".toList]⟩] = "a\n\nd\n".toList := by
  decide

/-! Helper lemmas on the Go string primitives. -/

theorem indexOf_isSome_of_infix {pat s : List Char} (h : pat <:+: s) :
    (indexOf? pat s).isSome := by
  induction s with
  | nil =>
    obtain ⟨u, v, huv⟩ := h
    have hp : pat = [] := by
      have := List.append_eq_nil.mp huv
      rcases List.append_eq_nil.mp this.1 with ⟨-, h2⟩
      exact h2
    simp [indexOf?, hp]
  | cons c rest ih =>
    rcases List.infix_cons_iff.mp h with h | h
    · have : pat.isPrefixOf (c :: rest) = true := List.isPrefixOf_iff_prefix.mpr h
      simp [indexOf?, this]
    · by_cases hp : pat.isPrefixOf (c :: rest)
      · simp [indexOf?, hp]
      · simp [indexOf?, hp, ih h]

theorem goTrimSpace_within (s : List Char) : goTrimSpace s <:+: s := by
  have h1 : s.dropWhile goIsSpace <:+ s := List.dropWhile_suffix _
  have h2 : ((s.dropWhile goIsSpace).reverse.dropWhile goIsSpace).reverse <+:
      s.dropWhile goIsSpace := by
    rw [← List.reverse_suffix, List.reverse_reverse]
    exact List.dropWhile_suffix _
  exact h2.isInfix.trans h1.isInfix

theorem containsSub_of_trim_hasSuffix {m p : List Char}
    (h : goHasSuffix m (goTrimSpace p) = true) : containsSub m p = true := by
  have hs : m <:+ goTrimSpace p := List.isSuffixOf_iff_suffix.mp h
  have hinf := hs.isInfix
  exact indexOf_isSome_of_infix (hinf.trans (goTrimSpace_within p))

/-- The redundant strings.Contains guard of the immediacy test: testing the
trimmed prefix for the marker suffix already decides the conjunction. -/
theorem marker_test_eq (m p : List Char) :
    (containsSub m p && goHasSuffix m (goTrimSpace p)) =
      goHasSuffix m (goTrimSpace p) := by
  cases hsuf : goHasSuffix m (goTrimSpace p) with
  | false => simp
  | true => simp [containsSub_of_trim_hasSuffix hsuf]

/-! Lemmas on the block segmenter leading to the round-trip property. -/

theorem splitNl_ne_nil (s : List Char) : splitNl s ≠ [] := by
  cases s with
  | nil => simp [splitNl]
  | cons c rest =>
    simp only [splitNl]
    split
    · simp
    · split <;> simp

theorem splitNl_not_mem_nl (s : List Char) : ∀ l ∈ splitNl s, '\n' ∉ l := by
  induction s with
  | nil => simp [splitNl]
  | cons c rest ih =>
    by_cases hc : c = '\n'
    · subst hc
      simp only [splitNl, if_pos rfl]
      intro l hl
      rcases List.mem_cons.mp hl with h | h
      · simp [h]
      · exact ih l h
    · simp only [splitNl, if_neg hc]
      obtain ⟨l0, ls0, hE⟩ : ∃ l0 ls0, splitNl rest = l0 :: ls0 := by
        cases h : splitNl rest with
        | nil => exact absurd h (splitNl_ne_nil rest)
        | cons a b => exact ⟨a, b, rfl⟩
      rw [hE]
      intro l hl
      rcases List.mem_cons.mp hl with h | h
      · subst h
        intro hmem
        rcases List.mem_cons.mp hmem with h | h
        · exact hc h.symm
        · exact ih l0 (hE ▸ List.mem_cons_self l0 ls0) h
      · exact ih l (hE ▸ List.mem_cons_of_mem l0 h)

theorem splitNl_append {l : List Char} (hl : '\n' ∉ l) (r : List Char) :
    splitNl (l ++ '\n' :: r) = l :: splitNl r := by
  induction l with
  | nil => simp [splitNl]
  | cons c cs ih =>
    have hc : ¬(c = '\n') := fun h => hl (h ▸ List.mem_cons_self c cs)
    have hcs : '\n' ∉ cs := fun h => hl (List.mem_cons_of_mem c h)
    simp only [List.cons_append, splitNl, if_neg hc]
    rw [show cs.append ('\n' :: r) = cs ++ '\n' :: r from rfl, ih hcs]

theorem splitNl_blockChunk {ls : List (List Char)}
    (h : ∀ l ∈ ls, '\n' ∉ l) (r : List Char) :
    splitNl (blockChunk ls ++ r) = ls ++ splitNl r := by
  induction ls with
  | nil => simp [blockChunk]
  | cons l ls' ih =>
    have h1 : '\n' ∉ l := h l (List.mem_cons_self l ls')
    have h2 : ∀ x ∈ ls', '\n' ∉ x := fun x hx => h x (List.mem_cons_of_mem l hx)
    have : blockChunk (l :: ls') ++ r = l ++ '\n' :: (blockChunk ls' ++ r) := by
      simp [blockChunk]
    rw [this, splitNl_append h1, ih h2, List.cons_append]

theorem splitNl_blocksToString {bs : List Block}
    (h : ∀ b ∈ bs, ∀ l ∈ b.lines, '\n' ∉ l) :
    splitNl (blocksToString bs) = glueLines (bs.map (·.lines)) := by
  induction bs with
  | nil => simp [blocksToString, glueLines, splitNl]
  | cons b bs' ih =>
    have hb : ∀ l ∈ b.lines, '\n' ∉ l := h b (List.mem_cons_self b bs')
    have hrest : ∀ x ∈ bs', ∀ l ∈ x.lines, '\n' ∉ l :=
      fun x hx => h x (List.mem_cons_of_mem b hx)
    cases bs' with
    | nil =>
      show splitNl (blockChunk b.lines) = b.lines ++ [[]]
      have := splitNl_blockChunk hb []
      simpa [splitNl] using this
    | cons b2 bs'' =>
      show splitNl (blockChunk b.lines ++ '\n' :: blocksToString (b2 :: bs'')) =
        b.lines ++ [] :: glueLines ((b2 :: bs'').map (·.lines))
      rw [splitNl_blockChunk hb]
      rw [show splitNl ('\n' :: blocksToString (b2 :: bs'')) =
        [] :: splitNl (blocksToString (b2 :: bs'')) from by simp [splitNl]]
      rw [ih hrest]

theorem parseLoop_nonblank {ls : List (List Char)}
    (h : ∀ l ∈ ls, (goTrimSpace l).isEmpty = false) (rest cur : List (List Char)) :
    parseLoop (ls ++ rest) cur = parseLoop rest (cur ++ ls) := by
  induction ls generalizing cur with
  | nil => simp
  | cons l ls' ih =>
    have h1 : (goTrimSpace l).isEmpty = false := h l (List.mem_cons_self l ls')
    have h2 : ∀ x ∈ ls', (goTrimSpace x).isEmpty = false :=
      fun x hx => h x (List.mem_cons_of_mem l hx)
    show parseLoop (l :: (ls' ++ rest)) cur = parseLoop rest (cur ++ l :: ls')
    rw [show parseLoop (l :: (ls' ++ rest)) cur = parseLoop (ls' ++ rest) (cur ++ [l])
      from by simp [parseLoop, h1]]
    rw [ih h2]
    simp

theorem parseLoop_glue {bss : List (List (List Char))}
    (h1 : ∀ b ∈ bss, b ≠ [])
    (h2 : ∀ b ∈ bss, ∀ l ∈ b, (goTrimSpace l).isEmpty = false) :
    parseLoop (glueLines bss) [] = bss := by
  induction bss with
  | nil => simp [glueLines, parseLoop, goTrimSpace]
  | cons b bss' ih =>
    have hb1 : b ≠ [] := h1 b (List.mem_cons_self b bss')
    have hb2 : ∀ l ∈ b, (goTrimSpace l).isEmpty = false :=
      h2 b (List.mem_cons_self b bss')
    have hbne : b.isEmpty = false := by
      cases b with
      | nil => exact absurd rfl hb1
      | cons x xs => rfl
    cases bss' with
    | nil =>
      show parseLoop (b ++ [[]]) [] = [b]
      rw [parseLoop_nonblank hb2]
      simp [parseLoop, goTrimSpace, hbne]
    | cons b2 bss'' =>
      show parseLoop (b ++ [] :: glueLines (b2 :: bss'')) [] = b :: b2 :: bss''
      rw [parseLoop_nonblank hb2]
      have hr1 : ∀ x ∈ b2 :: bss'', x ≠ [] :=
        fun x hx => h1 x (List.mem_cons_of_mem b hx)
      have hr2 : ∀ x ∈ b2 :: bss'', ∀ l ∈ x, (goTrimSpace l).isEmpty = false :=
        fun x hx => h2 x (List.mem_cons_of_mem b hx)
      simp only [List.nil_append, parseLoop, goTrimSpace, List.isEmpty_nil,
        List.dropWhile_nil, List.reverse_nil, if_pos, hbne]
      simp only [Bool.false_eq_true, if_false]
      rw [ih hr1 hr2]

theorem parseLoop_wf {ls cur : List (List Char)}
    (hcur : ∀ l ∈ cur, (goTrimSpace l).isEmpty = false) :
    ∀ b ∈ parseLoop ls cur,
      b ≠ [] ∧ ∀ l ∈ b, (goTrimSpace l).isEmpty = false := by
  induction ls generalizing cur with
  | nil =>
    intro b hb
    by_cases hc : cur.isEmpty
    · simp [parseLoop, hc] at hb
    · simp only [parseLoop, hc, if_false, Bool.false_eq_true] at hb
      rcases List.mem_singleton.mp hb with rfl
      exact ⟨List.isEmpty_eq_false.mp (by simpa using hc), hcur⟩
  | cons l ls' ih =>
    intro b hb
    by_cases hblank : (goTrimSpace l).isEmpty = true
    · by_cases hc : cur.isEmpty
      · simp only [parseLoop, hblank, if_true, hc] at hb
        exact ih (by simp) b hb
      · simp only [parseLoop, hblank, if_true, hc, Bool.false_eq_true,
          if_false] at hb
        rcases List.mem_cons.mp hb with rfl | hb
        · exact ⟨List.isEmpty_eq_false.mp (by simpa using hc), hcur⟩
        · exact ih (by simp) b hb
    · have hb' : b ∈ parseLoop ls' (cur ++ [l]) := by
        simpa [parseLoop, hblank] using hb
      refine ih ?_ b hb'
      intro x hx
      rcases List.mem_append.mp hx with hx | hx
      · exact hcur x hx
      · rcases List.mem_singleton.mp hx with rfl
        simpa using hblank

theorem parseLoop_lines_mem {ls cur : List (List Char)} :
    ∀ b ∈ parseLoop ls cur, ∀ l ∈ b, l ∈ cur ∨ l ∈ ls := by
  induction ls generalizing cur with
  | nil =>
    intro b hb l hl
    by_cases hc : cur.isEmpty
    · simp [parseLoop, hc] at hb
    · simp only [parseLoop, hc, Bool.false_eq_true, if_false] at hb
      rcases List.mem_singleton.mp hb with rfl
      exact Or.inl hl
  | cons x ls' ih =>
    intro b hb l hl
    by_cases hblank : (goTrimSpace x).isEmpty = true
    · by_cases hc : cur.isEmpty
      · simp only [parseLoop, hblank, if_true, hc] at hb
        rcases ih b hb l hl with h | h
        · simp at h
        · exact Or.inr (List.mem_cons_of_mem x h)
      · simp only [parseLoop, hblank, if_true, hc, Bool.false_eq_true,
          if_false] at hb
        rcases List.mem_cons.mp hb with rfl | hb
        · exact Or.inl hl
        · rcases ih b hb l hl with h | h
          · simp at h
          · exact Or.inr (List.mem_cons_of_mem x h)
    · have hb' : b ∈ parseLoop ls' (cur ++ [x]) := by
        simpa [parseLoop, hblank] using hb
      rcases ih b hb' l hl with h | h
      · rcases List.mem_append.mp h with h | h
        · exact Or.inl h
        · have hx : l = x := List.mem_singleton.mp h
          exact Or.inr (by rw [hx]; exact List.mem_cons_self x ls')
      · exact Or.inr (List.mem_cons_of_mem x h)

theorem parseBlocks_map_lines (t : List Char) :
    (parseBlocks t).map (·.lines) = parseLoop (splitNl t) [] := by
  simp only [parseBlocks, List.map_map]
  have : ((fun b : Block => b.lines) ∘ fun p : Nat × List (List Char) =>
      (⟨p.1, p.2⟩ : Block)) = Prod.snd := rfl
  rw [this, List.enum_map_snd]

theorem parseBlocks_roundtrip (t : List Char) :
    parseBlocks (blocksToString (parseBlocks t)) = parseBlocks t := by
  have hwf := @parseLoop_wf (splitNl t) [] (by simp)
  have hmem := @parseLoop_lines_mem (splitNl t) []
  have hnlfree : ∀ b ∈ parseBlocks t, ∀ l ∈ b.lines, '\n' ∉ l := by
    intro b hb l hl
    have hbl : b.lines ∈ parseLoop (splitNl t) [] := by
      rw [← parseBlocks_map_lines]
      exact List.mem_map_of_mem _ hb
    rcases hmem b.lines hbl l hl with h | h
    · simp at h
    · exact splitNl_not_mem_nl t l h
  have h1 : splitNl (blocksToString (parseBlocks t)) =
      glueLines (parseLoop (splitNl t) []) := by
    rw [splitNl_blocksToString hnlfree, parseBlocks_map_lines]
  have h2 : parseLoop (glueLines (parseLoop (splitNl t) [])) [] =
      parseLoop (splitNl t) [] := by
    refine parseLoop_glue ?_ ?_
    · exact fun b hb => (hwf b hb).1
    · exact fun b hb => (hwf b hb).2
  show (parseLoop (splitNl (blocksToString (parseBlocks t))) []).enum.map _ =
    (parseLoop (splitNl t) []).enum.map _
  rw [h1, h2]

/-! Lemmas on the execution loop. -/

theorem execLoop_eq_route (cfg : GoConfig) (acts : List (GoAction × Bool))
    (env : Env) (hist : List (List Char × List Char)) :
    execLoop cfg acts env hist =
      (tcFeedback (execPure cfg acts env).1, (execPure cfg acts env).2,
        hist ++ nonTcMsgs (execPure cfg acts env).1) := by
  induction acts generalizing env hist with
  | nil => simp [execLoop, execPure, tcFeedback, nonTcMsgs]
  | cons head rest ih =>
    obtain ⟨a, tc⟩ := head
    simp only [execLoop, execPure]
    rw [ih]
    cases tc <;>
      simp [tcFeedback, nonTcMsgs, List.filter_cons]

theorem execPure_length (cfg : GoConfig) (acts : List (GoAction × Bool))
    (env : Env) : (execPure cfg acts env).1.length = acts.length := by
  induction acts generalizing env with
  | nil => simp [execPure]
  | cons head rest ih => simp [execPure, ih]

/-! Trailing-newline facts about serialized blocks. -/

theorem blockChunk_last_suffix {ls : List (List Char)} {l : List Char}
    (h : ls.getLast? = some l) : l ++ ['\n'] <:+ blockChunk ls := by
  induction ls with
  | nil => simp at h
  | cons x ls' ih =>
    cases ls' with
    | nil =>
      have : x = l := by simpa using h
      subst this
      simp [blockChunk]
    | cons y t =>
      have h' : (y :: t).getLast? = some l := by
        simpa [List.getLast?_cons_cons] using h
      have : blockChunk (x :: y :: t) = (x ++ ['\n']) ++ blockChunk (y :: t) := by
        simp [blockChunk]
      rw [this]
      exact (ih h').trans (List.suffix_append _ _)

theorem blocksToString_last_suffix {bs : List Block} {b : Block}
    (h : bs.getLast? = some b) : blockChunk b.lines <:+ blocksToString bs := by
  induction bs with
  | nil => simp at h
  | cons x bs' ih =>
    cases bs' with
    | nil =>
      have : x = b := by simpa using h
      subst this
      simp [blocksToString]
    | cons y t =>
      have h' : (y :: t).getLast? = some b := by
        simpa [List.getLast?_cons_cons] using h
      have hq : blocksToString (x :: y :: t) =
          (blockChunk x.lines ++ ['\n']) ++ blocksToString (y :: t) := by
        simp [blocksToString]
      rw [hq]
      exact (ih h').trans (List.suffix_append _ _)

/-- A serialized block sequence whose final block ends in a non-empty,
newline-free line ends with exactly one newline: the final character is a
newline and the character before it is not. -/
theorem blocksToString_one_trailing {bs : List Block} {b : Block} {l : List Char}
    (hb : bs.getLast? = some b) (hl : b.lines.getLast? = some l) (hne : l ≠ [])
    (hfree : '\n' ∉ l) :
    ∃ u c, blocksToString bs = u ++ [c, '\n'] ∧ c ≠ '\n' := by
  have h1 : l ++ ['\n'] <:+ blocksToString bs :=
    (blockChunk_last_suffix hl).trans (blocksToString_last_suffix hb)
  obtain ⟨u, hu⟩ := h1
  refine ⟨u ++ l.dropLast, l.getLast hne, ?_, ?_⟩
  · rw [← hu]
    conv_lhs => rw [← List.dropLast_append_getLast hne]
    simp
  · intro hc
    exact hfree (hc ▸ List.getLast_mem hne)

/-! Lemmas on single scan-loop iterations. -/

theorem scanIter_unterminated {rem : List Char} {p : Nat} {t : Tag}
    (h1 : findFirstTag rem = some (p, t))
    (h2 : indexOf? (closeTagOf t) rem = none) :
    scanIter rem = .next (rem.drop (p + (openTagOf t).length)) none
      (containsSub toolCallMarker (rem.take p) &&
        goHasSuffix toolCallMarker (goTrimSpace (rem.take p))) := by
  simp [scanIter, h1, h2]

theorem scanIter_panic {rem : List Char} {p e : Nat} {t : Tag}
    (h1 : findFirstTag rem = some (p, t))
    (h2 : indexOf? (closeTagOf t) rem = some e)
    (h3 : e < p + (openTagOf t).length) :
    scanIter rem = .panicked := by
  simp [scanIter, h1, h2, h3]

theorem scanIter_terminated {rem : List Char} {p e : Nat} {t : Tag}
    (h1 : findFirstTag rem = some (p, t))
    (h2 : indexOf? (closeTagOf t) rem = some e)
    (h3 : ¬e < p + (openTagOf t).length) :
    scanIter rem = .next (rem.drop (e + (closeTagOf t).length))
      ((parsePayload t ((rem.take e).drop (p + (openTagOf t).length))).map
        fun a => (a, containsSub toolCallMarker (rem.take p) &&
          goHasSuffix toolCallMarker (goTrimSpace (rem.take p))))
      (containsSub toolCallMarker (rem.take p) &&
        goHasSuffix toolCallMarker (goTrimSpace (rem.take p))) := by
  simp [scanIter, h1, h2, h3]

theorem scanIter_immediacy {rem : List Char} {p : Nat} {t : Tag}
    {newRem : List Char} {em : Option (GoAction × Bool)} {flag : Bool}
    (h1 : findFirstTag rem = some (p, t))
    (h2 : scanIter rem = .next newRem em flag) :
    flag = goHasSuffix toolCallMarker (goTrimSpace (rem.take p)) ∧
      ∀ a b, em = some (a, b) → b = flag := by
  cases hidx : indexOf? (closeTagOf t) rem with
  | none =>
    rw [scanIter_unterminated h1 hidx] at h2
    simp only [IterOut.next.injEq] at h2
    refine ⟨?_, ?_⟩
    · rw [← h2.2.2, marker_test_eq]
    · intro a b hab
      rw [← h2.2.1] at hab
      simp at hab
  | some e =>
    by_cases he : e < p + (openTagOf t).length
    · rw [scanIter_panic h1 hidx he] at h2
      simp at h2
    · rw [scanIter_terminated h1 hidx he] at h2
      simp only [IterOut.next.injEq] at h2
      refine ⟨?_, ?_⟩
      · rw [← h2.2.2, marker_test_eq]
      · intro a b hab
        rw [← h2.2.1] at hab
        rcases Option.map_eq_some'.mp hab with ⟨x, -, hx2⟩
        have hb : b = (containsSub toolCallMarker (rem.take p) &&
            goHasSuffix toolCallMarker (goTrimSpace (rem.take p))) := by
          cases hx2
          rfl
        rw [hb, ← h2.2.2]

/-! Helper lemmas on execAction. -/

theorem gate_fs (auto : Bool) (env : Env) : (gate auto env).2.fs = env.fs := by
  unfold gate
  split
  · rfl
  · cases env.confirms <;> rfl

theorem execAction_patch_success {cfg : GoConfig} {fname : List Char} {i : Int}
    {c : List Char} {env g2 : Env} {content : List Char}
    (hg : gate cfg.autoEdit env = (true, g2))
    (hf : lookupFS g2.fs fname = some content)
    (hr : ¬(i < 0 ∨ ((parseBlocks content).length : Int) ≤ i)) :
    execAction cfg (.patch fname i c) env =
      (("File ".toList ++ fname ++ " patched successfully.".toList, false),
        { g2 with fs := writeFS g2.fs fname (blocksToString (patchEditBlocks (parseBlocks content) i.toNat c)) }) := by
  simp [execAction, hg, hf, hr]

theorem execAction_patch_notfound {cfg : GoConfig} {fname : List Char} {i : Int}
    {c : List Char} {env g2 : Env} {content : List Char}
    (hg : gate cfg.autoEdit env = (true, g2))
    (hf : lookupFS g2.fs fname = some content)
    (hr : i < 0 ∨ ((parseBlocks content).length : Int) ≤ i) :
    execAction cfg (.patch fname i c) env =
      (("Error: Block ID ".toList ++ (toString i).toList ++
        " not found in ".toList ++ fname, true), g2) := by
  simp [execAction, hg, hf, hr]

theorem execAction_run_failure {cfg : GoConfig} {cmd out err : List Char}
    {env g2 : Env}
    (hg : gate cfg.autoRun env = (true, g2))
    (hr : g2.runEnv cmd = (out, some err)) :
    execAction cfg (.run cmd) env =
      (("Command failed: ".toList ++ cmd ++ "\nError: ".toList ++ err, true),
        g2) := by
  simp [execAction, hg, hr]

theorem patchEditBlocks_delete (blocks : List Block) (i : Nat) (c : List Char)
    (h : (goTrimSpace c).isEmpty = true) :
    patchEditBlocks blocks i c = blocks.eraseIdx i := by
  simp [patchEditBlocks, h]

/-! The claim theorems. -/

/-- C1 counterexample: the scan loop does not complete without error on
every response text, and a selected opening tag is not matched only with a
closing tag occurring after its start: on a response whose closing tag
precedes the opening tag, the matched closing index lies before the end of
the opening tag and the payload slice is out of range (a Go panic). -/
theorem claim_c1_counterexample :
    extractDirectives ("</RUN><RUN>x</RUN>".toList) = .panicked := by decide

/-- C1 (amended): directive extraction is tolerant of unterminated tags but
not total: extract("<EDIT>\nfoo.txt\n") yields zero directives without
error, and an opening tag with no closing tag anywhere in the remaining
suffix is discarded with scanning resuming immediately after it; but the
closing tag is searched from the start of the remaining suffix, and when
the found closing index lies before the end of the opening tag the scan
aborts with a slice-bounds panic. -/
theorem claim_c1_scan_tolerance :
    extractDirectives ("<EDIT>\nfoo.txt\n".toList) = .ok [] false ∧
    (∀ rem p t fuel acc htc, findFirstTag rem = some (p, t) →
      indexOf? (closeTagOf t) rem = none →
      scanFuel (fuel + 1) rem acc htc =
        scanFuel fuel (rem.drop (p + (openTagOf t).length)) acc
          (htc || goHasSuffix toolCallMarker (goTrimSpace (rem.take p)))) ∧
    (∀ rem p t e fuel acc htc, findFirstTag rem = some (p, t) →
      indexOf? (closeTagOf t) rem = some e → e < p + (openTagOf t).length →
      scanFuel (fuel + 1) rem acc htc = .panicked) := by
  refine ⟨by decide, ?_, ?_⟩
  · intro rem p t fuel acc htc h1 h2
    simp [scanFuel, scanIter_unterminated h1 h2, marker_test_eq]
  · intro rem p t e fuel acc htc h1 h2 h3
    simp [scanFuel, scanIter_panic h1 h2 h3]

theorem claim_c1_scan_tolerance_witness :
    scanFuel 1 ("<EDIT>x".toList) [] false =
      scanFuel 0 (("<EDIT>x".toList).drop (0 + (openTagOf Tag.edit).length)) []
        (false || goHasSuffix toolCallMarker
          (goTrimSpace (("<EDIT>x".toList).take 0))) :=
  claim_c1_scan_tolerance.2.1 ("<EDIT>x".toList) 0 .edit 0 [] false
    (by decide) (by decide)

/-- C2: for every text, re-segmenting the serialization of its segmentation
is idempotent: parseBlocks (blocksToString (parseBlocks t)) equals
parseBlocks t, so in particular the block count, the ids 0..n-1 and the
lines of each block are identical. -/
theorem claim_c2_segmentation_idempotent (t : List Char) :
    parseBlocks (blocksToString (parseBlocks t)) = parseBlocks t :=
  parseBlocks_roundtrip t

theorem claim_c2_segmentation_idempotent_witness :
    parseBlocks (blocksToString (parseBlocks ("a\n\n\nb c\n".toList))) =
      parseBlocks ("a\n\n\nb c\n".toList) :=
  claim_c2_segmentation_idempotent ("a\n\n\nb c\n".toList)

/-- C3 counterexample: on "[TOOL_CALL] <RUN>x" the scanner extracts zero
directives yet records the tool-call marker, so handleResponse returns
hasImmediate = true with empty feedback although no immediate directive
produced any result there, refuting the claimed equivalence. -/
theorem claim_c3_counterexample :
    extractDirectives ("[TOOL_CALL] <RUN>x".toList) = .ok [] true ∧
    handleResponseGo ⟨false, false⟩ ("[TOOL_CALL] <RUN>x".toList)
        ⟨[], [], fun _ => ([], none)⟩ [] =
      some ([], true, ⟨[], [], fun _ => ([], none)⟩, []) := by
  exact ⟨by decide, rfl⟩

/-- C3 (amended): for every response whose scan completes, handleResponse
returns feedbackText equal to the concatenation, in execution order, of
each immediate result followed by a newline; hasImmediate is the scanner's
hasToolCall flag (set when a selected opening tag is preceded by the
trimmed [TOOL_CALL] marker, even if that directive is then discarded); and
every non-immediate result is appended to the history as a user-role entry
in execution order. -/
theorem claim_c3_result_routing (cfg : GoConfig) (resp : List Char) (env : Env)
    (hist : List (List Char × List Char)) (acts : List (GoAction × Bool))
    (htc : Bool) (h : extractDirectives resp = .ok acts htc) :
    handleResponseGo cfg resp env hist =
      some (tcFeedback (execPure cfg acts env).1, htc,
        (execPure cfg acts env).2,
        hist ++ nonTcMsgs (execPure cfg acts env).1) := by
  simp [handleResponseGo, h, execLoop_eq_route]

theorem claim_c3_result_routing_witness :
    handleResponseGo ⟨false, false⟩ ("<RUN>\nls\n</RUN>".toList)
        ⟨[], [], fun _ => ([], none)⟩ [] =
      some (tcFeedback (execPure ⟨false, false⟩ [(.run ("ls".toList), false)]
          ⟨[], [], fun _ => ([], none)⟩).1, false,
        (execPure ⟨false, false⟩ [(.run ("ls".toList), false)]
          ⟨[], [], fun _ => ([], none)⟩).2,
        [] ++ nonTcMsgs (execPure ⟨false, false⟩ [(.run ("ls".toList), false)]
          ⟨[], [], fun _ => ([], none)⟩).1) :=
  claim_c3_result_routing ⟨false, false⟩ ("<RUN>\nls\n</RUN>".toList)
    ⟨[], [], fun _ => ([], none)⟩ [] [(.run ("ls".toList), false)] false
    (by decide)

/-- C4: a directive extracted from a response is marked immediate exactly
when the text between the scan cursor (the start of the remaining suffix)
and the selected opening tag's start, after trimming, ends with the literal
[TOOL_CALL] (the redundant Contains guard of the source changes nothing);
and extract("prefix [TOOL_CALL] <RUN>\nls\n</RUN>") yields exactly one Run
directive with command ls and isImmediate = true. -/
theorem claim_c4_immediacy_marker :
    extractDirectives ("prefix [TOOL_CALL] <RUN>\nls\n</RUN>".toList) =
      .ok [(.run ("ls".toList), true)] true ∧
    (∀ rem p t newRem em flag, findFirstTag rem = some (p, t) →
      scanIter rem = .next newRem em flag →
      flag = goHasSuffix toolCallMarker (goTrimSpace (rem.take p)) ∧
        ∀ a b, em = some (a, b) → b = flag) :=
  ⟨by decide, fun _ _ _ _ _ _ h1 h2 => scanIter_immediacy h1 h2⟩

theorem claim_c4_immediacy_marker_witness :
    true = goHasSuffix toolCallMarker
      (goTrimSpace (("[TOOL_CALL] <RUN>\nls\n</RUN>".toList).take 12)) :=
  (claim_c4_immediacy_marker.2 ("[TOOL_CALL] <RUN>\nls\n</RUN>".toList) 12 .run
    [] (some (.run ("ls".toList), true)) true (by decide) (by decide)).1

/-- C5 counterexample: on a confirmed Run whose command fails with captured
output "some output", the result text is built from the command and the
error only; the captured output is not contained in it. -/
theorem claim_c5_counterexample :
    (execAction ⟨false, true⟩ (.run ("x".toList))
        ⟨[], [], fun _ =>
          ("some output".toList, some ("exit status 1".toList))⟩).1 =
      ("Command failed: x\nError: exit status 1".toList, true) ∧
    containsSub ("some output".toList)
      (execAction ⟨false, true⟩ (.run ("x".toList))
        ⟨[], [], fun _ =>
          ("some output".toList, some ("exit status 1".toList))⟩).1.1 =
      false := by
  exact ⟨by decide, by decide⟩

/-- C5 (amended): when a confirmed RunAction's command fails, the result is
"Command failed: <command>" plus the error text on a second line — the
captured combined output is not included — the action reports an error, and
the remaining actions of the batch still execute (every action of a batch
contributes exactly one result). -/
theorem claim_c5_run_failure (cfg : GoConfig) (cmd out err : List Char)
    (env g2 : Env) (hg : gate cfg.autoRun env = (true, g2))
    (hr : g2.runEnv cmd = (out, some err)) :
    execAction cfg (.run cmd) env =
      (("Command failed: ".toList ++ cmd ++ "\nError: ".toList ++ err, true),
        g2) ∧
    ∀ acts, (execPure cfg acts env).1.length = acts.length :=
  ⟨execAction_run_failure hg hr, fun acts => execPure_length cfg acts env⟩

theorem claim_c5_run_failure_witness :
    execAction ⟨false, true⟩ (.run ("x".toList))
        ⟨[], [], fun _ => ([], some ("boom".toList))⟩ =
      (("Command failed: ".toList ++ "x".toList ++ "\nError: ".toList ++
        "boom".toList, true),
        ⟨[], [], fun _ => ([], some ("boom".toList))⟩) :=
  (claim_c5_run_failure ⟨false, true⟩ ("x".toList) [] ("boom".toList)
    ⟨[], [], fun _ => ([], some ("boom".toList))⟩
    ⟨[], [], fun _ => ([], some ("boom".toList))⟩ rfl rfl).1

/-- C6: a confirmed PatchAction whose blockId lies outside [0, blockCount)
of the target file's segmentation returns the block-not-found error result,
leaves the filesystem unchanged, and the remaining actions of the batch
still execute. -/
theorem claim_c6_patch_out_of_range (cfg : GoConfig) (fname : List Char)
    (i : Int) (c : List Char) (env g2 : Env) (content : List Char)
    (hg : gate cfg.autoEdit env = (true, g2))
    (hf : lookupFS g2.fs fname = some content)
    (hr : i < 0 ∨ ((parseBlocks content).length : Int) ≤ i) :
    execAction cfg (.patch fname i c) env =
      (("Error: Block ID ".toList ++ (toString i).toList ++
        " not found in ".toList ++ fname, true), g2) ∧
    (execAction cfg (.patch fname i c) env).2.fs = env.fs ∧
    ∀ acts, (execPure cfg acts env).1.length = acts.length := by
  refine ⟨execAction_patch_notfound hg hf hr, ?_,
    fun acts => execPure_length cfg acts env⟩
  rw [execAction_patch_notfound hg hf hr]
  have h := gate_fs cfg.autoEdit env
  rw [hg] at h
  exact h

theorem claim_c6_patch_out_of_range_witness :
    execAction ⟨true, false⟩ (.patch ("f".toList) 5 ("z".toList))
        ⟨[("f".toList, "a".toList)], [], fun _ => ([], none)⟩ =
      (("Error: Block ID ".toList ++ (toString (5 : Int)).toList ++
        " not found in ".toList ++ "f".toList, true),
        ⟨[("f".toList, "a".toList)], [], fun _ => ([], none)⟩) :=
  (claim_c6_patch_out_of_range ⟨true, false⟩ ("f".toList) 5 ("z".toList)
    ⟨[("f".toList, "a".toList)], [], fun _ => ([], none)⟩
    ⟨[("f".toList, "a".toList)], [], fun _ => ([], none)⟩ ("a".toList)
    rfl (by decide) (by decide)).1

/-- C7: a confirmed PatchAction whose content is empty after trimming
deletes the addressed block from the segmentation before re-serializing;
concretely, deleting block 1 of the file a\n\nb\nc\n\nd rewrites it to
a\n\nd\n, whose re-segmentation is exactly the 2 blocks [a] and [d]. -/
theorem claim_c7_patch_delete (cfg : GoConfig) (fname : List Char) (i : Int)
    (c : List Char) (env g2 : Env) (content : List Char)
    (hg : gate cfg.autoEdit env = (true, g2))
    (hf : lookupFS g2.fs fname = some content)
    (hc : (goTrimSpace c).isEmpty = true)
    (hr : ¬(i < 0 ∨ ((parseBlocks content).length : Int) ≤ i)) :
    (execAction cfg (.patch fname i c) env =
      (("File ".toList ++ fname ++ " patched successfully.".toList, false),
        { g2 with fs := writeFS g2.fs fname (blocksToString ((parseBlocks content).eraseIdx i.toNat)) })) ∧
    (execAction ⟨true, false⟩ (.patch ("f".toList) 1 [])
        ⟨[("f".toList, "a\n\nb\nc\n\nd".toList)], [], fun _ => ([], none)⟩).2.fs =
      [("f".toList, "a\n\nd\n".toList)] ∧
    parseBlocks ("a\n\nd\n".toList) = [⟨0, ["a".toList]⟩, ⟨1, ["d".toList]⟩] := by
  refine ⟨?_, by decide, by decide⟩
  rw [execAction_patch_success hg hf hr, patchEditBlocks_delete _ _ _ hc]

theorem claim_c7_patch_delete_witness :
    execAction ⟨true, false⟩ (.patch ("f".toList) 1 [])
        ⟨[("f".toList, "a\n\nb\nc\n\nd".toList)], [], fun _ => ([], none)⟩ =
      (("File ".toList ++ "f".toList ++ " patched successfully.".toList, false),
        { (⟨[("f".toList, "a\n\nb\nc\n\nd".toList)], [], fun _ => ([], none)⟩ : Env) with
          fs := writeFS [("f".toList, "a\n\nb\nc\n\nd".toList)] ("f".toList)
            (blocksToString ((parseBlocks ("a\n\nb\nc\n\nd".toList)).eraseIdx
              (1 : Int).toNat)) }) :=
  (claim_c7_patch_delete ⟨true, false⟩ ("f".toList) 1 []
    ⟨[("f".toList, "a\n\nb\nc\n\nd".toList)], [], fun _ => ([], none)⟩
    ⟨[("f".toList, "a\n\nb\nc\n\nd".toList)], [], fun _ => ([], none)⟩
    ("a\n\nb\nc\n\nd".toList) rfl (by decide) (by decide) (by decide)).1

/-- C8: block splitting is deferred to the next segmentation: patching
block 0 of a single-block file with "x\n\ny" touches exactly one block (the
in-memory block list still has length 1), the file is rewritten to
x\n\ny\n, and re-segmenting that yields the 2 blocks [x] and [y]. -/
theorem claim_c8_deferred_split :
    (patchEditBlocks (parseBlocks ("a".toList)) 0 ("x\n\ny".toList)).length = 1 ∧
    (execAction ⟨true, false⟩ (.patch ("f".toList) 0 ("x\n\ny".toList))
        ⟨[("f".toList, "a".toList)], [], fun _ => ([], none)⟩).2.fs =
      [("f".toList, "x\n\ny\n".toList)] ∧
    parseBlocks ("x\n\ny\n".toList) =
      [⟨0, ["x".toList]⟩, ⟨1, ["y".toList]⟩] := by
  exact ⟨by decide, by decide, by decide⟩

/-- C9 counterexample: a step file whose steps all complete normally with
no <END> in any reply leaves the sentinel file in place when the runner
stops, contradicting deletion on normal completion. -/
theorem claim_c9_counterexample :
    runAgenticModeGo ("Steps:\nhello".toList)
      ⟨true, [some ("ok".toList), some ("fine".toList)], 0⟩ =
    ⟨true, [], 1⟩ := by decide

/-- C9 (amended): the runner deletes the sentinel file on the 10-step cap
(an 11-step file with no <END> stops after step 10 with the file removed),
on <END> detection in a step reply, and on transport failure, but a run
that completes all parsed steps normally ends with the sentinel file still
present. -/
theorem claim_c9_sentinel :
    runAgenticModeGo
        ("Steps:\ns1\ns2\ns3\ns4\ns5\ns6\ns7\ns8\ns9\ns10\ns11".toList)
        ⟨true, List.replicate 20 (some ("ok".toList)), 0⟩ = ⟨false, [], 10⟩ ∧
    (∀ step rest rc st, (goTrimSpace step).isEmpty = false → 10 < rc + 1 →
      stepsLoop (step :: rest) rc st = { st with sentinel := false }) ∧
    (∀ step rest rc st st₁ resp, (goTrimSpace step).isEmpty = false →
      ¬10 < rc + 1 → popReply st = (some resp, st₁) →
      containsSub endMarker resp = true →
      stepsLoop (step :: rest) rc st =
        { st₁ with executed := st₁.executed + 1, sentinel := false }) ∧
    (∀ rc st, stepsLoop [] rc st = st) := by
  refine ⟨by decide, ?_, ?_, fun rc st => rfl⟩
  · intro step rest rc st h1 h2
    simp [stepsLoop, h1, h2]
  · intro step rest rc st st₁ resp h1 h2 h3 h4
    simp [stepsLoop, h1, h2, h3, h4]

theorem claim_c9_sentinel_witness :
    stepsLoop [("s".toList)] 10 ⟨true, [], 0⟩ =
      { (⟨true, [], 0⟩ : AgentState) with sentinel := false } :=
  claim_c9_sentinel.2.1 ("s".toList) [] 10 ⟨true, [], 0⟩ (by decide) (by decide)

/-- C10 counterexample: deleting the only block of a file is a successful
patch that writes the empty file, which does not end with a newline at all,
refuting that the written file always ends with exactly one trailing
newline. -/
theorem claim_c10_counterexample :
    (execAction ⟨true, false⟩ (.patch ("f".toList) 0 [])
        ⟨[("f".toList, "a".toList)], [], fun _ => ([], none)⟩).1.2 = false ∧
    (execAction ⟨true, false⟩ (.patch ("f".toList) 0 [])
        ⟨[("f".toList, "a".toList)], [], fun _ => ([], none)⟩).2.fs =
      [("f".toList, [])] ∧
    goHasSuffix ['\n'] [] = false := by
  exact ⟨by decide, by decide, by decide⟩

/-- C10 (amended): every successful PatchAction rewrites the whole target
file as blocksToString of the segmentation of the previous content with
the one block edited, so whitespace-only lines as well as empty lines act
as boundaries and runs of blank lines collapse to one separator (witnessed
concretely on a file with a whitespace-only line and a blank run, patched
with identical text); and the written file ends with exactly one trailing
newline whenever the resulting block list is non-empty and its last block
ends in a non-empty newline-free line — deleting the only block instead
writes an empty file. -/
theorem claim_c10_normalisation :
    (∀ cfg fname i c env g2 content, gate (GoConfig.autoEdit cfg) env = (true, g2) →
      lookupFS (Env.fs g2) fname = some content →
      ¬(i < 0 ∨ ((parseBlocks content).length : Int) ≤ i) →
      execAction cfg (.patch fname i c) env =
        (("File ".toList ++ fname ++ " patched successfully.".toList, false),
          { g2 with fs := writeFS g2.fs fname (blocksToString (patchEditBlocks (parseBlocks content) i.toNat c)) })) ∧
    (execAction ⟨true, false⟩ (.patch ("f".toList) 2 ("c".toList))
        ⟨[("f".toList, "a\n \nb\n\n\n\nc".toList)], [], fun _ => ([], none)⟩).2.fs =
      [("f".toList, "a\n\nb\n\nc\n".toList)] ∧
    (∀ bs b l, List.getLast? bs = some b → List.getLast? (Block.lines b) = some l →
      l ≠ [] → '\n' ∉ l →
      ∃ u cch, blocksToString bs = u ++ [cch, '\n'] ∧ cch ≠ '\n') := by
  refine ⟨?_, by decide, ?_⟩
  · intro cfg fname i c env g2 content hg hf hr
    exact execAction_patch_success hg hf hr
  · intro bs b l h1 h2 h3 h4
    exact blocksToString_one_trailing h1 h2 h3 h4

theorem claim_c10_normalisation_witness :
    ∃ u cch, blocksToString [(⟨0, ["a".toList]⟩ : Block)] = u ++ [cch, '\n'] ∧
      cch ≠ '\n' :=
  claim_c10_normalisation.2.2 [⟨0, ["a".toList]⟩] ⟨0, ["a".toList]⟩ ("a".toList)
    (by decide) (by decide) (by decide) (by decide)

end Arisu
